import Mathlib

/-
Verification development for the hoa-js/adapter repository.

The Transport Binder definitions below are a shallow embedding of
src/nodeServer.js.  The Body Normalizer definitions further down are
modelled from the specification, since the normalization code itself
lives outside the repository sources (only its tests are in the repo).
Mutation of the JavaScript app object is rendered as explicit state
passing: an extension maps an app and a world state to the updated app
and updated world state.
-/

set_option maxRecDepth 4096

/-- A header mapping: insertion-ordered list of name/value pairs with
case-insensitive name lookup. -/
structure HeaderMap where
  entries : List (String × String)
deriving DecidableEq, Repr

/-- ASCII lowercasing of one character. -/
def lowerChar (c : Char) : Char :=
  if 65 ≤ c.toNat && c.toNat ≤ 90 then Char.ofNat (c.toNat + 32) else c

/-- ASCII lowercasing of a character list. -/
def lowerList : List Char → List Char
  | [] => []
  | c :: cs => lowerChar c :: lowerList cs

/-- Case-insensitive header-name comparison. -/
def keyEq (a b : String) : Bool := lowerList a.data == lowerList b.data

/-- First value whose name matches case-insensitively, scanning in
insertion order. -/
def lookupEntries : List (String × String) → String → Option String
  | [], _ => none
  | e :: es, nm => if keyEq e.1 nm then some e.2 else lookupEntries es nm

/-- Whether some entry's name matches case-insensitively. -/
def hasName : List (String × String) → String → Bool
  | [], _ => false
  | e :: es, nm => keyEq e.1 nm || hasName es nm

/-- Case-insensitive lookup on a header map. -/
def headerGet (h : HeaderMap) (nm : String) : Option String :=
  lookupEntries h.entries nm

/-- Append a header only when no entry with that name exists yet
(case-insensitively); this is the inference primitive, it never
overwrites. -/
def setIfAbsent (h : HeaderMap) (nm v : String) : HeaderMap :=
  if hasName h.entries nm then h else ⟨h.entries ++ [(nm, v)]⟩

/-- Merge the second map over the first: on a name conflict the second
map's entry wins; non-conflicting entries of both survive. -/
def mergeHeaders (base extra : HeaderMap) : HeaderMap :=
  ⟨base.entries.filter (fun e => !(hasName extra.entries e.1)) ++ extra.entries⟩

/-- Body of an already-fully-formed web response: either a materialized
buffer of bytes or a stream of binary chunks. -/
inductive WebBody where
  | buffer (bytes : List Nat)
  | stream (chunks : List (List Nat))
deriving DecidableEq, Repr

/-- An already-fully-formed web response (the Fetch-style `Response`):
carries its own status, headers and body. -/
structure WebResponse where
  status : Nat
  headers : HeaderMap
  body : WebBody
deriving DecidableEq, Repr

/-- A raw incoming connection, kept opaque as a byte list. -/
structure RawConnection where
  bytes : List Nat
deriving DecidableEq, Repr

/-- A standards-shaped request, kept opaque as a byte list. -/
structure StdRequest where
  bytes : List Nat
deriving DecidableEq, Repr

/-- Modelled from the spec: the external request-adapter collaborator
with contract adapt(rawConnection) -> standardsRequest; its internals
are outside this system's scope. -/
def adapt (conn : RawConnection) : StdRequest := ⟨conn.bytes⟩

/-- Embedding of `createServerAdapter` from src/nodeServer.js's import:
wraps a Fetch-style handler so each accepted connection is converted to
a standards request and passed to the handler. -/
def createServerAdapter (fetchHandler : StdRequest → WebResponse) :
    RawConnection → WebResponse :=
  fun conn => fetchHandler (adapt conn)

/-- The host HTTP server handle: an identity plus the connection
handler it was created with. -/
structure HttpServer where
  id : Nat
  handler : RawConnection → WebResponse

/-- World state tracking host-server creation effects. -/
structure ServerState where
  nextId : Nat
  createdCount : Nat
deriving DecidableEq, Repr

/-- Modelled from the spec: the consumed host capability
createServer(connectionHandler) -> serverHandle; creating a server is
the only effect, recorded in the world state. -/
def createServer (handler : RawConnection → WebResponse) (st : ServerState) :
    HttpServer × ServerState :=
  ({ id := st.nextId, handler := handler },
   { nextId := st.nextId + 1, createdCount := st.createdCount + 1 })

/-- One argument of a `listen(...)` call: port, host, backlog or a
completion callback, in any of the host's supported call shapes. -/
inductive ListenArg where
  | port (n : Nat)
  | host (h : String)
  | backlog (n : Nat)
  | callback (tag : Nat)
deriving DecidableEq, Repr

/-- Record of one forwarded listen call on the host server. -/
structure ListenEvent where
  serverId : Nat
  args : List ListenArg
deriving DecidableEq, Repr

/-- The host server's own listen operation: consumes the argument list
and synchronously returns the same server handle, recording the call. -/
def HttpServer.listenOp (s : HttpServer) (args : List ListenArg) :
    HttpServer × ListenEvent :=
  (s, { serverId := s.id, args := args })

/-- Value stored in an app's `listen` slot: either something that was
there before the extension ran, or the function installed by the
extension, closed over the created server. -/
inductive ListenFn where
  | preexisting (tag : Nat)
  | installed (server : HttpServer)

/-- The Hoa app object: its Fetch-style handler, its `listen` slot and
a bag of unrelated properties (used to state frame conditions). -/
structure Hoa where
  fetch : StdRequest → WebResponse
  listen : Option ListenFn
  extras : List (String × String)

/-- Calling `app.listen(...)`: runs the stored listen function.  Only
the installed function has semantics in this model. -/
def appListen (app : Hoa) (args : List ListenArg) :
    Option (HttpServer × ListenEvent) :=
  match app.listen with
  | some (ListenFn.installed s) => some (s.listenOp args)
  | _ => none

/-- The options object accepted by `nodeServer`; no recognized field. -/
structure Options where
  fields : List (String × String)
deriving DecidableEq, Repr

/-- Embedding of `nodeServer` from src/nodeServer.js: returns the
extension which, applied to an app (and the world state), creates one
server whose handler is the request adapter wrapped around the app's
fetch, and overwrites the app's `listen` slot with a function
forwarding to that server. -/
def nodeServer (options : Options) : Hoa → ServerState → Hoa × ServerState :=
  fun app st =>
    let serverAdapter := createServerAdapter (fun request => app.fetch request)
    let created := createServer serverAdapter st
    ({ app with listen := some (ListenFn.installed created.1) }, created.2)

/-- C1: every argument list passed to the installed `listen` is
forwarded unchanged to the underlying server's listen operation, which
synchronously returns the single server handle created at extension
time — the same handle for every call and every argument list. -/
theorem c1_listen_forwards_args_and_returns_handle
    (o : Options) (app : Hoa) (st : ServerState) (args : List ListenArg) :
    appListen (nodeServer o app st).1 args =
      some (⟨st.nextId, createServerAdapter app.fetch⟩,
            ⟨st.nextId, args⟩) := rfl

/-- C2: `nodeServer` has the shape attach(options) -> (app) -> updated
app: applied to any app it installs a `listen` function bound to the
freshly created server; and since no field of options is read, the
returned extension is literally the same function for any two options
values (noninterference of options). -/
theorem c2_attach_shape_and_options_noninterference :
    (∀ o1 o2 : Options, nodeServer o1 = nodeServer o2) ∧
    (∀ (o : Options) (app : Hoa) (st : ServerState),
      ((nodeServer o) app st).1.listen =
        some (ListenFn.installed ⟨st.nextId, createServerAdapter app.fetch⟩)) :=
  ⟨fun _ _ => rfl, fun _ _ _ => rfl⟩

/-- C3: one application of the extension creates exactly one server
(the creation count grows by exactly one and one fresh id is consumed),
that server's handler is the request adapter wrapped around the app's
fetch, and the installed `listen` targets exactly that server. -/
theorem c3_exactly_one_server_created
    (o : Options) (app : Hoa) (st : ServerState) :
    (nodeServer o app st).2.createdCount = st.createdCount + 1 ∧
    (nodeServer o app st).2.nextId = st.nextId + 1 ∧
    (nodeServer o app st).1.listen =
      some (ListenFn.installed
        ⟨st.nextId, createServerAdapter app.fetch⟩) :=
  ⟨rfl, rfl, rfl⟩

/-- C10: applying the extension changes only the app's `listen`
property — `fetch` and every other property are untouched — and any
pre-existing `listen` value is unconditionally overwritten by the
function bound to the freshly created server. -/
theorem c10_frame_only_listen_mutated
    (o : Options) (app : Hoa) (st : ServerState) :
    (nodeServer o app st).1.fetch = app.fetch ∧
    (nodeServer o app st).1.extras = app.extras ∧
    (nodeServer o app st).1.listen =
      some (ListenFn.installed ⟨st.nextId, createServerAdapter app.fetch⟩) ∧
    (∀ prior : Option ListenFn,
      (nodeServer o { app with listen := prior } st).1.listen =
        (nodeServer o app st).1.listen) :=
  ⟨rfl, rfl, rfl, fun _ => rfl⟩

/-- The double-quote character. -/
def qc : Char := Char.ofNat 34

/-- The backslash character. -/
def bsl : Char := Char.ofNat 92

/-- The opening-brace character. -/
def obr : Char := Char.ofNat 123

/-- The closing-brace character. -/
def cbr : Char := Char.ofNat 125

/-- The carriage-return / line-feed pair. -/
def crlf : List Char := [Char.ofNat 13, Char.ofNat 10]

/-- Decimal digit character for a value below ten. -/
def digitChar : Nat → Char
  | 0 => '0' | 1 => '1' | 2 => '2' | 3 => '3' | 4 => '4'
  | 5 => '5' | 6 => '6' | 7 => '7' | 8 => '8' | _ => '9'

/-- Numeric value of a decimal digit character. -/
def dval (c : Char) : Nat := c.toNat - 48

/-- Whether a character is a decimal digit. -/
def isDigitCh (c : Char) : Bool := 48 ≤ c.toNat && c.toNat ≤ 57

/-- Lowercase hexadecimal digit character for a value below sixteen. -/
def hexChar : Nat → Char
  | 0 => '0' | 1 => '1' | 2 => '2' | 3 => '3' | 4 => '4'
  | 5 => '5' | 6 => '6' | 7 => '7' | 8 => '8' | 9 => '9'
  | 10 => 'a' | 11 => 'b' | 12 => 'c' | 13 => 'd' | 14 => 'e' | _ => 'f'

/-- Numeric value of a hexadecimal digit character, if it is one. -/
def hexVal (c : Char) : Option Nat :=
  if 48 ≤ c.toNat && c.toNat ≤ 57 then some (c.toNat - 48)
  else if 97 ≤ c.toNat && c.toNat ≤ 102 then some (c.toNat - 87)
  else if 65 ≤ c.toNat && c.toNat ≤ 70 then some (c.toNat - 55)
  else none

/-- UTF-8 encoding of one character, as natural-number bytes. -/
def utf8EncodeCharNat (c : Char) : List Nat :=
  let n := c.toNat
  if n < 128 then [n]
  else if n < 2048 then [192 + n / 64, 128 + n % 64]
  else if n < 65536 then [224 + n / 4096, 128 + (n / 64) % 64, 128 + n % 64]
  else [240 + n / 262144, 128 + (n / 4096) % 64, 128 + (n / 64) % 64, 128 + n % 64]

/-- UTF-8 encoding of a character list. -/
def utf8Bytes : List Char → List Nat
  | [] => []
  | c :: cs => utf8EncodeCharNat c ++ utf8Bytes cs

/-- Decimal digits of a positive number, least significant first. -/
def revDigits : Nat → List Char
  | 0 => []
  | n+1 => digitChar ((n+1) % 10) :: revDigits ((n+1) / 10)
decreasing_by exact Nat.div_lt_self (Nat.succ_pos _) (by decide)

/-- Standard decimal rendering of a natural number. -/
def natDigitChars (n : Nat) : List Char :=
  if n = 0 then ['0'] else (revDigits n).reverse

/-- Value of a big-endian list of decimal digit characters. -/
def digitsVal (ds : List Char) : Nat :=
  ds.foldl (fun a c => a * 10 + dval c) 0

/-- Split a character list into its maximal leading run of decimal
digits and the remainder. -/
def takeDigits : List Char → List Char × List Char
  | [] => ([], [])
  | c :: cs =>
    if isDigitCh c then
      let p := takeDigits cs
      (c :: p.1, p.2)
    else ([], c :: cs)

/-- Modelled from the spec: JSON-serializable structured values (the
fallback body classification: plain objects, arrays, numbers, booleans,
strings, null). -/
inductive JsonValue where
  | jnull
  | jbool (b : Bool)
  | jnum (n : Int)
  | jstr (s : String)
  | jarr (elems : List JsonValue)
  | jobj (fields : List (String × JsonValue))

/-- JSON escaping of one character inside a string literal. -/
def escapeChar (c : Char) : List Char :=
  if c = qc then [bsl, qc]
  else if c = bsl then [bsl, bsl]
  else if c.toNat < 32 then [bsl, 'u', '0', '0', hexChar (c.toNat / 16), hexChar (c.toNat % 16)]
  else [c]

/-- JSON escaping of a character list. -/
def escapeChars : List Char → List Char
  | [] => []
  | c :: cs => escapeChar c ++ escapeChars cs

/-- JSON rendering of a string literal, quotes included. -/
def encStr (s : String) : List Char := qc :: (escapeChars s.data ++ [qc])

/-- JSON rendering of an integer. -/
def encNum (n : Int) : List Char :=
  if n < 0 then '-' :: natDigitChars n.natAbs else natDigitChars n.natAbs

mutual

/-- Modelled from the spec: serialize via JSON encoding (character
level, no insignificant whitespace). -/
def encChars : JsonValue → List Char
  | .jnull => ['n', 'u', 'l', 'l']
  | .jbool true => ['t', 'r', 'u', 'e']
  | .jbool false => ['f', 'a', 'l', 's', 'e']
  | .jnum n => encNum n
  | .jstr s => encStr s
  | .jarr xs => '[' :: (encItems xs ++ [']'])
  | .jobj fs => obr :: (encFields fs ++ [cbr])

/-- Comma-separated JSON renderings of array elements. -/
def encItems : List JsonValue → List Char
  | [] => []
  | [x] => encChars x
  | x :: y :: t => encChars x ++ ',' :: encItems (y :: t)

/-- Comma-separated JSON renderings of object members. -/
def encFields : List (String × JsonValue) → List Char
  | [] => []
  | [f] => encStr f.1 ++ ':' :: encChars f.2
  | f :: g :: t => (encStr f.1 ++ ':' :: encChars f.2) ++ ',' :: encFields (g :: t)

end

/-- JSON serialization of a structured value, as a string. -/
def jsonEncode (v : JsonValue) : String := String.mk (encChars v)

/-- One field of a multipart form: a plain text field, or a named
binary attachment with a declared media type. -/
inductive FormField where
  | textField (nm value : String)
  | fileField (nm filename mediaType : String) (content : List Nat)
deriving DecidableEq, Repr

/-- Bytes that URL-encoding may pass through unescaped. -/
def isUrlSafe (b : Nat) : Bool :=
  (48 ≤ b && b ≤ 57) || (65 ≤ b && b ≤ 90) || (97 ≤ b && b ≤ 122) ||
  b == 45 || b == 46 || b == 95 || b == 126

/-- Percent-encoding of one byte. -/
def percentEncodeByte (b : Nat) : List Char :=
  if isUrlSafe b then [Char.ofNat b] else ['%', hexChar (b / 16), hexChar (b % 16)]

/-- Percent-encoding of a byte list. -/
def percentEncodeBytes : List Nat → List Char
  | [] => []
  | b :: bs => percentEncodeByte b ++ percentEncodeBytes bs

/-- Percent-encoding of a string (over its UTF-8 bytes). -/
def percentEncode (s : String) : List Char := percentEncodeBytes (utf8Bytes s.data)

/-- Modelled from the spec: url-encoded-form serialization, key=value
pairs joined by ampersands with percent-encoded names and values. -/
def urlEncodePairs : List (String × String) → List Char
  | [] => []
  | [p] => percentEncode p.1 ++ '=' :: percentEncode p.2
  | p :: q :: t => (percentEncode p.1 ++ '=' :: percentEncode p.2) ++ '&' :: urlEncodePairs (q :: t)

/-- The multipart boundary chosen by the encoder of this model. -/
def boundaryValue : String := "hoaadapterformboundary"

/-- Modelled from the spec: one multipart part per form field; text
fields carry no extra headers, binary attachments carry their declared
media type and filename. -/
def multipartField (f : FormField) : List Nat :=
  match f with
  | .textField nm v =>
      utf8Bytes ('-' :: '-' :: boundaryValue.data ++ crlf
        ++ "Content-Disposition: form-data; name=".data
        ++ qc :: nm.data ++ qc :: crlf ++ crlf ++ v.data ++ crlf)
  | .fileField nm fn mt content =>
      utf8Bytes ('-' :: '-' :: boundaryValue.data ++ crlf
        ++ "Content-Disposition: form-data; name=".data
        ++ qc :: nm.data ++ qc :: "; filename=".data ++ qc :: fn.data ++ [qc] ++ crlf
        ++ "Content-Type: ".data ++ mt.data ++ crlf ++ crlf)
      ++ content ++ utf8Bytes crlf

/-- Concatenation of a list of byte chunks. -/
def flatChunks : List (List Nat) → List Nat
  | [] => []
  | c :: cs => c ++ flatChunks cs

/-- Modelled from the spec: multipart form encoding of a field list,
closed by the final boundary marker. -/
def multipartBytes (fs : List FormField) : List Nat :=
  flatChunks (fs.map multipartField)
  ++ utf8Bytes ('-' :: '-' :: boundaryValue.data ++ ['-', '-'])

/-- Modelled from the spec: the Body Value tagged union, one variant
per recognized body kind. -/
inductive BodyValue where
  | nullBody
  | text (s : String)
  | binaryBuffer (bytes : List Nat)
  | binaryView (buffer : List Nat) (byteOffset byteLength : Nat)
  | byteStream (chunks : List (List Nat))
  | formData (fields : List FormField)
  | urlEncodedForm (pairs : List (String × String))
  | structured (v : JsonValue)
  | foreignResponse (r : WebResponse)

/-- Modelled from the spec: the Response Descriptor — status (absent
means the default 200), ordered case-insensitive headers, and a body
value; mutable until normalization runs. -/
structure ResponseDescriptor where
  status : Option Nat
  headers : HeaderMap
  body : BodyValue

/-- The transmission mode chosen for a response: no body, one buffered
write, or a sequence of streamed chunk writes. -/
inductive Transmission where
  | empty
  | buffered (bytes : List Nat)
  | streamed (chunks : List (List Nat))

/-- The bytes a transmission delivers in total. -/
def bodyBytes : Transmission → List Nat
  | .empty => []
  | .buffered bs => bs
  | .streamed cs => flatChunks cs

/-- The finalized outbound response: status, headers and transmission. -/
structure EmittedResponse where
  status : Nat
  headers : HeaderMap
  transmission : Transmission

/-- The designated byte range of a binary view: `byteLength` bytes
starting at `byteOffset` of the underlying buffer. -/
def byteRange (buffer : List Nat) (off len : Nat) : List Nat :=
  (buffer.drop off).take len

/-- Canonical spelling of the content-type header name. -/
def contentTypeName : String := "Content-Type"

/-- Modelled from the spec: the Body Normalizer — ordered
classification of the body value, first match wins; it decides status,
headers (inference fills the content type only when absent) and the
transmission mode. -/
def normalizeBody (d : ResponseDescriptor) : EmittedResponse :=
  match d.body with
  | .foreignResponse r =>
      { status := r.status,
        headers := mergeHeaders d.headers r.headers,
        transmission :=
          match r.body with
          | .buffer bs => .buffered bs
          | .stream cs => .streamed cs }
  | .nullBody =>
      { status := d.status.getD 200, headers := d.headers, transmission := .empty }
  | .byteStream cs =>
      { status := d.status.getD 200, headers := d.headers, transmission := .streamed cs }
  | .binaryBuffer bs =>
      { status := d.status.getD 200, headers := d.headers, transmission := .buffered bs }
  | .binaryView buf off len =>
      { status := d.status.getD 200, headers := d.headers,
        transmission := .buffered (byteRange buf off len) }
  | .formData fs =>
      { status := d.status.getD 200,
        headers := setIfAbsent d.headers contentTypeName
          ("multipart/form-data; boundary=" ++ boundaryValue),
        transmission := .buffered (multipartBytes fs) }
  | .urlEncodedForm ps =>
      { status := d.status.getD 200,
        headers := setIfAbsent d.headers contentTypeName
          "application/x-www-form-urlencoded",
        transmission := .buffered (utf8Bytes (urlEncodePairs ps)) }
  | .text s =>
      { status := d.status.getD 200, headers := d.headers,
        transmission := .buffered (utf8Bytes s.data) }
  | .structured v =>
      { status := d.status.getD 200,
        headers := setIfAbsent d.headers contentTypeName
          "application/json; charset=utf-8",
        transmission := .buffered (utf8Bytes (encChars v)) }

/-- Sequentially write chunks to a connection that already holds some
bytes: each chunk is appended in production order, one at a time. -/
def writeLoop (chunks : List (List Nat)) (conn : List Nat) : List Nat :=
  match chunks with
  | [] => conn
  | c :: cs => writeLoop cs (conn ++ c)

theorem keyEq_forall_congr (a b : String) (h : keyEq a b = true) (k : String) :
    keyEq k a = keyEq k b := by
  unfold keyEq at *
  have hab : lowerList a.data = lowerList b.data := by simpa using h
  rw [hab]

theorem hasName_congr (l : List (String × String)) (a b : String)
    (h : keyEq a b = true) : hasName l a = hasName l b := by
  induction l with
  | nil => rfl
  | cons e es ih => simp [hasName, ih, keyEq_forall_congr a b h e.1]

theorem hasName_of_lookup_some (l : List (String × String)) (nm v : String)
    (h : lookupEntries l nm = some v) : hasName l nm = true := by
  induction l with
  | nil => simp [lookupEntries] at h
  | cons e es ih =>
    cases hk : keyEq e.1 nm with
    | true => simp [hasName, hk]
    | false =>
      simp [lookupEntries, hk] at h
      simp [hasName, hk, ih h]

theorem lookup_none_of_hasName_false (l : List (String × String)) (nm : String)
    (h : hasName l nm = false) : lookupEntries l nm = none := by
  induction l with
  | nil => rfl
  | cons e es ih =>
    simp [hasName] at h
    simp [lookupEntries, h.1, ih h.2]

theorem hasName_false_of_lookup_none (l : List (String × String)) (nm : String)
    (h : lookupEntries l nm = none) : hasName l nm = false := by
  induction l with
  | nil => rfl
  | cons e es ih =>
    cases hk : keyEq e.1 nm with
    | true => simp [lookupEntries, hk] at h
    | false =>
      simp [lookupEntries, hk] at h
      simp [hasName, hk, ih h]

theorem lookupEntries_append_some (l1 l2 : List (String × String)) (nm v : String)
    (h : lookupEntries l1 nm = some v) :
    lookupEntries (l1 ++ l2) nm = some v := by
  induction l1 with
  | nil => simp [lookupEntries] at h
  | cons e es ih =>
    cases hk : keyEq e.1 nm with
    | true => simp_all [lookupEntries, hk]
    | false =>
      simp [lookupEntries, hk] at h
      simp [lookupEntries, hk, ih h]

theorem lookupEntries_append_none (l1 l2 : List (String × String)) (nm : String)
    (h : lookupEntries l1 nm = none) :
    lookupEntries (l1 ++ l2) nm = lookupEntries l2 nm := by
  induction l1 with
  | nil => rfl
  | cons e es ih =>
    cases hk : keyEq e.1 nm with
    | true => simp [lookupEntries, hk] at h
    | false =>
      simp [lookupEntries, hk] at h
      simp [lookupEntries, hk, ih h]

theorem filter_lookup_none (base extra : List (String × String)) (nm : String)
    (h : hasName extra nm = true) :
    lookupEntries (base.filter (fun e => !(hasName extra e.1))) nm = none := by
  induction base with
  | nil => rfl
  | cons e es ih =>
    cases hk : keyEq e.1 nm with
    | true =>
      have he : hasName extra e.1 = true := by
        rw [hasName_congr extra e.1 nm hk]; exact h
      simpa [List.filter_cons, he] using ih
    | false =>
      cases hp : hasName extra e.1 with
      | true => simpa [List.filter_cons, hp] using ih
      | false => simpa [List.filter_cons, hp, lookupEntries, hk] using ih

theorem filter_lookup_eq (base extra : List (String × String)) (nm : String)
    (h : hasName extra nm = false) :
    lookupEntries (base.filter (fun e => !(hasName extra e.1))) nm =
      lookupEntries base nm := by
  induction base with
  | nil => rfl
  | cons e es ih =>
    cases hk : keyEq e.1 nm with
    | true =>
      have he : hasName extra e.1 = false := by
        rw [hasName_congr extra e.1 nm hk]; exact h
      simp [List.filter_cons, he, lookupEntries, hk]
    | false =>
      cases hp : hasName extra e.1 with
      | true => simp [List.filter_cons, hp, lookupEntries, hk, ih]
      | false => simp [List.filter_cons, hp, lookupEntries, hk, ih]

theorem mergeHeaders_get_extra (b e : HeaderMap) (nm v : String)
    (h : headerGet e nm = some v) :
    headerGet (mergeHeaders b e) nm = some v := by
  unfold headerGet mergeHeaders at *
  rw [lookupEntries_append_none _ _ _
    (filter_lookup_none _ _ _ (hasName_of_lookup_some _ _ _ h))]
  exact h

theorem mergeHeaders_get_base (b e : HeaderMap) (nm : String)
    (h : headerGet e nm = none) :
    headerGet (mergeHeaders b e) nm = headerGet b nm := by
  unfold headerGet mergeHeaders at *
  have hn : hasName e.entries nm = false := hasName_false_of_lookup_none _ _ h
  cases hb : lookupEntries b.entries nm with
  | some v =>
    rw [lookupEntries_append_some _ _ _ v (by rw [filter_lookup_eq _ _ _ hn]; exact hb)]
  | none =>
    rw [lookupEntries_append_none _ _ _ (by rw [filter_lookup_eq _ _ _ hn]; exact hb)]
    exact h

theorem headerGet_setIfAbsent_of_present (h : HeaderMap) (nm v nv : String)
    (hp : headerGet h nm = some v) :
    headerGet (setIfAbsent h nm nv) nm = some v := by
  unfold setIfAbsent
  rw [if_pos (hasName_of_lookup_some _ _ _ hp)]
  exact hp

theorem writeLoop_spec (cs : List (List Nat)) (conn : List Nat) :
    writeLoop cs conn = conn ++ flatChunks cs := by
  induction cs generalizing conn with
  | nil => simp [writeLoop, flatChunks]
  | cons c cs ih => simp [writeLoop, flatChunks, ih, List.append_assoc]

/-- C4 (amended): for every response descriptor whose content type was
explicitly set before normalization, and for every body value of a
recognized kind other than a foreign response that itself carries a
content-type header, the emitted response carries the explicit content
type unchanged — inference only fills the header when absent and never
overwrites it; only foreign-header adoption can replace it. -/
theorem c4_explicit_content_type_preserved
    (d : ResponseDescriptor) (v : String)
    (hset : headerGet d.headers contentTypeName = some v)
    (hforeign : ∀ r, d.body = BodyValue.foreignResponse r →
      headerGet r.headers contentTypeName = none) :
    headerGet (normalizeBody d).headers contentTypeName = some v := by
  obtain ⟨st, hd, bd⟩ := d
  cases bd with
  | nullBody => exact hset
  | text s => exact hset
  | binaryBuffer bs => exact hset
  | binaryView buf off len => exact hset
  | byteStream cs => exact hset
  | formData fs => exact headerGet_setIfAbsent_of_present _ _ _ _ hset
  | urlEncodedForm ps => exact headerGet_setIfAbsent_of_present _ _ _ _ hset
  | structured jv => exact headerGet_setIfAbsent_of_present _ _ _ _ hset
  | foreignResponse r =>
    show headerGet (mergeHeaders hd r.headers) contentTypeName = some v
    rw [mergeHeaders_get_base _ _ _ (hforeign r rfl)]
    exact hset

/-- Concrete descriptor refuting C4 as stated: an explicit content type
together with a foreign-response body that carries its own content
type. -/
def c4cex : ResponseDescriptor :=
  ⟨none, ⟨[("Content-Type", "text/plain")]⟩,
   BodyValue.foreignResponse
     ⟨200, ⟨[("Content-Type", "application/json")]⟩, WebBody.buffer []⟩⟩

/-- C4 counterexample: the descriptor's explicitly set content type
`text/plain` is not preserved when the body is a foreign response with
its own content type — the emitted header is the foreign one. -/
theorem c4_counterexample :
    headerGet c4cex.headers contentTypeName = some "text/plain" ∧
    headerGet (normalizeBody c4cex).headers contentTypeName =
      some "application/json" ∧
    headerGet (normalizeBody c4cex).headers contentTypeName ≠
      some "text/plain" := by
  refine ⟨rfl, by decide, by decide⟩

/-- C4 witness: a descriptor with explicit content type `text/plain`
and a structured body keeps `text/plain` — inference does not clobber
it. -/
theorem c4_explicit_content_type_preserved_witness :
    headerGet
      (normalizeBody
        ⟨none, ⟨[("Content-Type", "text/plain")]⟩,
         BodyValue.structured JsonValue.jnull⟩).headers contentTypeName =
      some "text/plain" :=
  c4_explicit_content_type_preserved
    ⟨none, ⟨[("Content-Type", "text/plain")]⟩,
     BodyValue.structured JsonValue.jnull⟩
    "text/plain" (by decide) (fun r hr => by cases hr)

/-- C5: a foreign fully-formed response assigned as the body is adopted
verbatim: its status becomes the emitted status, every one of its
headers is visible in the emitted headers (foreign wins over any
conflicting descriptor header), and its body bytes are reproduced
exactly, buffered or streamed according to what the foreign body
exposes. -/
theorem c5_foreign_response_adopted
    (d : ResponseDescriptor) (r : WebResponse)
    (hb : d.body = BodyValue.foreignResponse r) :
    (normalizeBody d).status = r.status ∧
    (∀ nm v, headerGet r.headers nm = some v →
      headerGet (normalizeBody d).headers nm = some v) ∧
    bodyBytes (normalizeBody d).transmission =
      (match r.body with
       | WebBody.buffer bs => bs
       | WebBody.stream cs => flatChunks cs) ∧
    (∀ bs, r.body = WebBody.buffer bs →
      (normalizeBody d).transmission = Transmission.buffered bs) ∧
    (∀ cs, r.body = WebBody.stream cs →
      (normalizeBody d).transmission = Transmission.streamed cs) := by
  obtain ⟨st, hd, bd⟩ := d
  cases hb
  refine ⟨rfl, ?_, ?_, ?_, ?_⟩
  · intro nm v hv
    exact mergeHeaders_get_extra hd r.headers nm v hv
  · cases hr : r.body <;> simp [normalizeBody, hr, bodyBytes]
  · intro bs hbs; simp [normalizeBody, hbs]
  · intro cs hcs; simp [normalizeBody, hcs]

/-- The foreign response of the C5 witness: status 201, a custom
header, and a buffered body, mirroring the repository test. -/
def c5resp : WebResponse :=
  ⟨201, ⟨[("content-type", "text/plain"), ("X-Foo", "foo")]⟩,
   WebBody.buffer (utf8Bytes "response body".data)⟩

/-- C5 witness: with the concrete foreign response of status 201 and
custom header X-Foo, the emitted response reproduces both exactly, and
the body bytes are the foreign bytes. -/
theorem c5_foreign_response_adopted_witness :
    (normalizeBody ⟨none, ⟨[]⟩, BodyValue.foreignResponse c5resp⟩).status = 201 ∧
    headerGet
      (normalizeBody ⟨none, ⟨[]⟩, BodyValue.foreignResponse c5resp⟩).headers
      "X-Foo" = some "foo" ∧
    bodyBytes
      (normalizeBody ⟨none, ⟨[]⟩, BodyValue.foreignResponse c5resp⟩).transmission =
      utf8Bytes "response body".data := by
  have h := c5_foreign_response_adopted
    ⟨none, ⟨[]⟩, BodyValue.foreignResponse c5resp⟩ c5resp rfl
  exact ⟨h.1, h.2.1 "X-Foo" "foo" (by decide), h.2.2.1⟩

/-- C7: binary buffers and binary views round trip byte for byte — the
emitted transmission is one buffered write of exactly the input bytes
(for a view, exactly its designated byte range), and no content type is
inferred: the headers leave the descriptor unchanged. -/
theorem c7_binary_byte_roundtrip :
    (∀ (d : ResponseDescriptor) (bs : List Nat),
      d.body = BodyValue.binaryBuffer bs →
      (normalizeBody d).transmission = Transmission.buffered bs ∧
      (normalizeBody d).headers = d.headers) ∧
    (∀ (d : ResponseDescriptor) (buf : List Nat) (off len : Nat),
      d.body = BodyValue.binaryView buf off len →
      (normalizeBody d).transmission =
        Transmission.buffered (byteRange buf off len) ∧
      (normalizeBody d).headers = d.headers) := by
  constructor
  · intro d bs hb
    obtain ⟨st, hd, bd⟩ := d
    cases hb
    exact ⟨rfl, rfl⟩
  · intro d buf off len hb
    obtain ⟨st, hd, bd⟩ := d
    cases hb
    exact ⟨rfl, rfl⟩

/-- C7 witness: a concrete buffer round trips as is, and the view of
length 3 at offset 1 over [9,8,7,6,5] emits exactly [8,7,6]. -/
theorem c7_binary_byte_roundtrip_witness :
    (normalizeBody ⟨none, ⟨[]⟩, BodyValue.binaryBuffer [1, 2, 3]⟩).transmission =
      Transmission.buffered [1, 2, 3] ∧
    (normalizeBody ⟨none, ⟨[]⟩, BodyValue.binaryView [9, 8, 7, 6, 5] 1 3⟩).transmission =
      Transmission.buffered [8, 7, 6] := by
  have h1 := (c7_binary_byte_roundtrip.1
    ⟨none, ⟨[]⟩, BodyValue.binaryBuffer [1, 2, 3]⟩ [1, 2, 3] rfl).1
  have h2 := (c7_binary_byte_roundtrip.2
    ⟨none, ⟨[]⟩, BodyValue.binaryView [9, 8, 7, 6, 5] 1 3⟩ [9, 8, 7, 6, 5] 1 3 rfl).1
  exact ⟨h1, by rw [h2]; rfl⟩

/-- C8: a byte-stream body is transmitted as a streamed sequence of
chunks identical, in order, to the chunks the source produces; writing
them one at a time to the connection yields exactly the concatenation
of the produced chunks in produced order. -/
theorem c8_stream_chunks_in_order
    (d : ResponseDescriptor) (cs : List (List Nat))
    (hb : d.body = BodyValue.byteStream cs) :
    (normalizeBody d).transmission = Transmission.streamed cs ∧
    writeLoop cs [] = flatChunks cs ∧
    bodyBytes (normalizeBody d).transmission = flatChunks cs := by
  obtain ⟨st, hd, bd⟩ := d
  cases hb
  exact ⟨rfl, by simpa using writeLoop_spec cs [], rfl⟩

/-- C8 witness: the concrete chunk sequence [[1,2],[3],[4,5]] is
streamed in order and the connection receives [1,2,3,4,5]. -/
theorem c8_stream_chunks_in_order_witness :
    (normalizeBody ⟨none, ⟨[]⟩,
      BodyValue.byteStream [[1, 2], [3], [4, 5]]⟩).transmission =
      Transmission.streamed [[1, 2], [3], [4, 5]] ∧
    writeLoop [[1, 2], [3], [4, 5]] [] = [1, 2, 3, 4, 5] := by
  have h := c8_stream_chunks_in_order
    ⟨none, ⟨[]⟩, BodyValue.byteStream [[1, 2], [3], [4, 5]]⟩
    [[1, 2], [3], [4, 5]] rfl
  exact ⟨h.1, by rw [h.2.1]; rfl⟩

/-- C9 (amended): a null/absent body always yields an empty response
body (zero bytes); the emitted status is the explicitly set one when
present and otherwise defaults to 200, which lies in {200, 204}. -/
theorem c9_null_body_empty_response (d : ResponseDescriptor)
    (hb : d.body = BodyValue.nullBody) :
    bodyBytes (normalizeBody d).transmission = [] ∧
    (normalizeBody d).status = d.status.getD 200 ∧
    (d.status = none →
      (normalizeBody d).status = 200 ∧
      (normalizeBody d).status ∈ [200, 204]) := by
  obtain ⟨st, hd, bd⟩ := d
  cases hb
  refine ⟨rfl, rfl, ?_⟩
  intro hs
  cases hs
  refine ⟨rfl, ?_⟩
  show (200 : Nat) ∈ [200, 204]
  decide

/-- Concrete descriptor refuting C9 as stated: a null body with an
explicitly set status 404. -/
def c9cex : ResponseDescriptor := ⟨some 404, ⟨[]⟩, BodyValue.nullBody⟩

/-- C9 counterexample: with a null body and explicit status 404 the
emitted body is empty but the status is 404, which is not in the
claimed set {200, 204}. -/
theorem c9_counterexample :
    c9cex.body = BodyValue.nullBody ∧
    bodyBytes (normalizeBody c9cex).transmission = [] ∧
    (normalizeBody c9cex).status = 404 ∧
    (normalizeBody c9cex).status ∉ [200, 204] := by
  refine ⟨rfl, rfl, rfl, by decide⟩

/-- C9 witness: with a null body and no explicit status the emitted
body is empty and the status is the default 200. -/
theorem c9_null_body_empty_response_witness :
    bodyBytes (normalizeBody ⟨none, ⟨[]⟩, BodyValue.nullBody⟩).transmission = [] ∧
    (normalizeBody ⟨none, ⟨[]⟩, BodyValue.nullBody⟩).status = 200 := by
  have h := c9_null_body_empty_response ⟨none, ⟨[]⟩, BodyValue.nullBody⟩ rfl
  exact ⟨h.1, (h.2.2 rfl).1⟩

/-- Guard on the text following a rendered number: parsing is stable as
long as the remainder does not begin with another digit. -/
def numGuard : List Char → Bool
  | [] => true
  | c :: _ => !(isDigitCh c)

/-- Wrap a parsed string-body result by one more decoded character. -/
def consStr (c : Char) : Option (List Char × List Char) → Option (List Char × List Char)
  | some (s, r) => some (c :: s, r)
  | none => none

mutual

/-- JSON string-body parser: consumes characters after an opening
quote, decoding the escapes the encoder emits, up to the closing
quote; returns the decoded characters and the remainder. -/
def parseStrBody : List Char → Option (List Char × List Char)
  | [] => none
  | c :: cs =>
    if c = qc then some ([], cs)
    else if c = bsl then parseEscBody cs
    else consStr c (parseStrBody cs)

/-- Decode one escape sequence after a backslash, then continue with
the string body. -/
def parseEscBody : List Char → Option (List Char × List Char)
  | [] => none
  | d :: ds =>
    if d = qc then consStr qc (parseStrBody ds)
    else if d = bsl then consStr bsl (parseStrBody ds)
    else if d = 'u' then parseHexBody ds
    else none

/-- Decode a four-digit hexadecimal escape, then continue with the
string body. -/
def parseHexBody : List Char → Option (List Char × List Char)
  | h1 :: h2 :: h3 :: h4 :: rest =>
    match hexVal h1, hexVal h2, hexVal h3, hexVal h4 with
    | some a, some b, some c2, some d2 =>
      consStr (Char.ofNat (((a * 16 + b) * 16 + c2) * 16 + d2)) (parseStrBody rest)
    | _, _, _, _ => none
  | _ => none

end

/-- Fuel-indexed parser for comma-separated array elements up to the
closing bracket, parameterized by the element parser. -/
def parseListAux (pElem : List Char → Option (JsonValue × List Char)) :
    Nat → List Char → Option (List JsonValue × List Char)
  | 0, _ => none
  | g+1, input =>
    match input with
    | [] => none
    | c :: cs =>
      if c = ']' then some ([], cs)
      else
        match pElem (c :: cs) with
        | some (v, d :: r2) =>
          if d = ',' then
            match parseListAux pElem g r2 with
            | some (vs, r3) => some (v :: vs, r3)
            | none => none
          else if d = ']' then some ([v], r2)
          else none
        | _ => none

/-- Fuel-indexed parser for comma-separated object members up to the
closing brace, parameterized by the value parser. -/
def parseFieldsAux (pElem : List Char → Option (JsonValue × List Char)) :
    Nat → List Char → Option (List (String × JsonValue) × List Char)
  | 0, _ => none
  | g+1, input =>
    match input with
    | [] => none
    | c :: cs =>
      if c = cbr then some ([], cs)
      else if c = qc then
        match parseStrBody cs with
        | some (k, ':' :: r2) =>
          match pElem r2 with
          | some (v, d :: r4) =>
            if d = ',' then
              match parseFieldsAux pElem g r4 with
              | some (fs, r5) => some ((String.mk k, v) :: fs, r5)
              | none => none
            else if d = cbr then some ([(String.mk k, v)], r4)
            else none
          | _ => none
        | _ => none
      else none

/-- Expect the tail of the literal `null`. -/
def expectNull : List Char → Option (JsonValue × List Char)
  | 'u' :: 'l' :: 'l' :: rest => some (JsonValue.jnull, rest)
  | _ => none

/-- Expect the tail of the literal `true`. -/
def expectTrue : List Char → Option (JsonValue × List Char)
  | 'r' :: 'u' :: 'e' :: rest => some (JsonValue.jbool true, rest)
  | _ => none

/-- Expect the tail of the literal `false`. -/
def expectFalse : List Char → Option (JsonValue × List Char)
  | 'a' :: 'l' :: 's' :: 'e' :: rest => some (JsonValue.jbool false, rest)
  | _ => none

/-- Wrap a parsed string body as a JSON string value. -/
def mapStr : Option (List Char × List Char) → Option (JsonValue × List Char)
  | some (s, r) => some (JsonValue.jstr (String.mk s), r)
  | none => none

/-- Wrap parsed array elements as a JSON array value. -/
def mapArr : Option (List JsonValue × List Char) → Option (JsonValue × List Char)
  | some (vs, r) => some (JsonValue.jarr vs, r)
  | none => none

/-- Wrap parsed object members as a JSON object value. -/
def mapObj : Option (List (String × JsonValue) × List Char) →
    Option (JsonValue × List Char)
  | some (fs, r) => some (JsonValue.jobj fs, r)
  | none => none

/-- Parse the digits of a negative number after the minus sign. -/
def parseNegNum (cs : List Char) : Option (JsonValue × List Char) :=
  match takeDigits cs with
  | ([], _) => none
  | (ds, rest) => some (JsonValue.jnum (-(digitsVal ds : Int)), rest)

/-- Parse the remaining digits of a nonnegative number whose first
digit has been consumed. -/
def parseNumFrom (c : Char) (cs : List Char) : Option (JsonValue × List Char) :=
  match takeDigits cs with
  | (ds, rest) => some (JsonValue.jnum ((digitsVal (c :: ds) : Nat) : Int), rest)

/-- Fuel-indexed JSON value parser: recursive-descent over the
character list, descending one fuel level per nesting level. -/
def parseVal : Nat → List Char → Option (JsonValue × List Char)
  | 0, _ => none
  | f+1, input =>
    match input with
    | [] => none
    | c :: cs =>
      if c = 'n' then expectNull cs
      else if c = 't' then expectTrue cs
      else if c = 'f' then expectFalse cs
      else if c = qc then mapStr (parseStrBody cs)
      else if c = '[' then mapArr (parseListAux (parseVal f) (cs.length + 1) cs)
      else if c = obr then mapObj (parseFieldsAux (parseVal f) (cs.length + 1) cs)
      else if c = '-' then parseNegNum cs
      else if isDigitCh c then parseNumFrom c cs
      else none

/-- JSON parsing of a whole string: the parse must consume every
character. -/
def jsonParse (s : String) : Option JsonValue :=
  match parseVal (s.data.length + 1) s.data with
  | some (v, []) => some v
  | _ => none

theorem dval_digitChar : ∀ d < 10, dval (digitChar d) = d := by decide

theorem isDigitCh_digitChar : ∀ d < 10, isDigitCh (digitChar d) = true := by decide

theorem revDigits_all_digits (n : Nat) : ∀ c ∈ revDigits n, isDigitCh c = true := by
  induction n using Nat.strong_induction_on with
  | _ n ih =>
    match n with
    | 0 => intro c hc; simp [revDigits] at hc
    | m+1 =>
      intro c hc
      rw [revDigits] at hc
      rcases List.mem_cons.mp hc with rfl | hc
      · exact isDigitCh_digitChar _ (Nat.mod_lt _ (by decide))
      · exact ih ((m+1) / 10) (Nat.div_lt_self (Nat.succ_pos m) (by decide)) c hc

theorem foldl_revDigits (n : Nat) : ∀ a : Nat,
    ((revDigits n).reverse).foldl (fun acc c => acc * 10 + dval c) a =
      a * 10 ^ (revDigits n).length + n := by
  induction n using Nat.strong_induction_on with
  | _ n ih =>
    match n with
    | 0 => intro a; simp [revDigits]
    | m+1 =>
      intro a
      rw [revDigits]
      simp only [List.reverse_cons, List.foldl_append, List.foldl_cons, List.foldl_nil,
        List.length_cons]
      rw [ih ((m+1) / 10) (Nat.div_lt_self (Nat.succ_pos m) (by decide)) a]
      rw [dval_digitChar _ (Nat.mod_lt _ (by decide))]
      rw [pow_succ]
      have hdm : (m+1) / 10 * 10 + (m+1) % 10 = m + 1 := by omega
      calc (a * 10 ^ (revDigits ((m+1) / 10)).length + (m+1) / 10) * 10 + (m+1) % 10
          = a * (10 ^ (revDigits ((m+1) / 10)).length * 10)
            + ((m+1) / 10 * 10 + (m+1) % 10) := by ring
        _ = a * (10 ^ (revDigits ((m+1) / 10)).length * 10) + (m+1) := by rw [hdm]

theorem digitsVal_natDigitChars (n : Nat) : digitsVal (natDigitChars n) = n := by
  by_cases h : n = 0
  · subst h; decide
  · unfold natDigitChars digitsVal
    rw [if_neg h, foldl_revDigits n 0]
    simp

theorem natDigitChars_all_digits (n : Nat) :
    ∀ c ∈ natDigitChars n, isDigitCh c = true := by
  unfold natDigitChars
  by_cases h : n = 0
  · subst h; decide
  · rw [if_neg h]
    intro c hc
    exact revDigits_all_digits n c (List.mem_reverse.mp hc)

theorem natDigitChars_ne_nil (n : Nat) : natDigitChars n ≠ [] := by
  unfold natDigitChars
  by_cases h : n = 0
  · simp [h]
  · rw [if_neg h]
    match hm : n with
    | 0 => exact absurd rfl h
    | m+1 => rw [revDigits]; simp

theorem takeDigits_append (ds rest : List Char)
    (hds : ∀ c ∈ ds, isDigitCh c = true) (hr : numGuard rest = true) :
    takeDigits (ds ++ rest) = (ds, rest) := by
  induction ds with
  | nil =>
    match rest with
    | [] => rfl
    | c :: cs =>
      simp only [numGuard, Bool.not_eq_true'] at hr
      simp [takeDigits, hr]
  | cons d ds ih =>
    have hd : isDigitCh d = true := hds d (List.mem_cons_self d ds)
    have ihds : ∀ c ∈ ds, isDigitCh c = true := fun c hc => hds c (List.mem_cons_of_mem d hc)
    simp [takeDigits, hd, ih ihds]

theorem hexVal_hexChar : ∀ h < 16, hexVal (hexChar h) = some h := by decide

theorem parseStrBody_qc (l : List Char) : parseStrBody (qc :: l) = some ([], l) := by
  rw [parseStrBody]
  simp

theorem parseStrBody_bsl (l : List Char) :
    parseStrBody (bsl :: l) = parseEscBody l := by
  rw [parseStrBody]
  simp [show ¬ bsl = qc from by decide]

theorem parseStrBody_plain (c : Char) (l : List Char)
    (hq : ¬ c = qc) (hb : ¬ c = bsl) :
    parseStrBody (c :: l) = consStr c (parseStrBody l) := by
  rw [parseStrBody]
  simp [hq, hb]

theorem parseEscBody_qc (l : List Char) :
    parseEscBody (qc :: l) = consStr qc (parseStrBody l) := by
  rw [parseEscBody]
  simp

theorem parseEscBody_bsl (l : List Char) :
    parseEscBody (bsl :: l) = consStr bsl (parseStrBody l) := by
  rw [parseEscBody]
  simp [show ¬ bsl = qc from by decide]

theorem parseEscBody_u (l : List Char) :
    parseEscBody ('u' :: l) = parseHexBody l := by
  rw [parseEscBody]
  simp [show ¬ ('u' : Char) = qc from by decide, show ¬ ('u' : Char) = bsl from by decide]

theorem parseHexBody_digits (h1 h2 h3 h4 : Char) (a b c2 d2 : Nat) (l : List Char)
    (hv1 : hexVal h1 = some a) (hv2 : hexVal h2 = some b)
    (hv3 : hexVal h3 = some c2) (hv4 : hexVal h4 = some d2) :
    parseHexBody (h1 :: h2 :: h3 :: h4 :: l) =
      consStr (Char.ofNat (((a * 16 + b) * 16 + c2) * 16 + d2)) (parseStrBody l) := by
  rw [parseHexBody]
  simp [hv1, hv2, hv3, hv4]

theorem parseStrBody_escape (cs : List Char) : ∀ rest,
    parseStrBody (escapeChars cs ++ qc :: rest) = some (cs, rest) := by
  induction cs with
  | nil => intro rest; exact parseStrBody_qc rest
  | cons c cs ih =>
    intro rest
    by_cases hq : c = qc
    · subst hq
      have h1 : escapeChars (qc :: cs) ++ qc :: rest =
          bsl :: qc :: (escapeChars cs ++ qc :: rest) := by
        simp [escapeChars, escapeChar]
      rw [h1, parseStrBody_bsl, parseEscBody_qc, ih rest]
      rfl
    · by_cases hb : c = bsl
      · subst hb
        have h1 : escapeChars (bsl :: cs) ++ qc :: rest =
            bsl :: bsl :: (escapeChars cs ++ qc :: rest) := by
          simp [escapeChars, escapeChar, show ¬ bsl = qc from by decide]
        rw [h1, parseStrBody_bsl, parseEscBody_bsl, ih rest]
        rfl
      · by_cases hlt : c.toNat < 32
        · have h1 : escapeChars (c :: cs) ++ qc :: rest =
              bsl :: 'u' :: '0' :: '0' :: hexChar (c.toNat / 16)
                :: hexChar (c.toNat % 16) :: (escapeChars cs ++ qc :: rest) := by
            simp [escapeChars, escapeChar, hq, hb, hlt]
          rw [h1, parseStrBody_bsl, parseEscBody_u,
            parseHexBody_digits '0' '0' (hexChar (c.toNat / 16)) (hexChar (c.toNat % 16))
              0 0 (c.toNat / 16) (c.toNat % 16) _
              (by decide) (by decide) (hexVal_hexChar _ (by omega))
              (hexVal_hexChar _ (by omega)),
            ih rest]
          rw [show ((0 * 16 + 0) * 16 + c.toNat / 16) * 16 + c.toNat % 16 = c.toNat
            from by omega, Char.ofNat_toNat]
          rfl
        · have h1 : escapeChars (c :: cs) ++ qc :: rest =
              c :: (escapeChars cs ++ qc :: rest) := by
            simp [escapeChars, escapeChar, hq, hb, hlt]
          rw [h1, parseStrBody_plain c _ hq hb, ih rest]
          rfl

theorem ne_of_isDigitCh {c : Char} (h : isDigitCh c = true) {d : Char}
    (hd : isDigitCh d = false) : ¬ c = d := by
  intro he
  subst he
  simp [h] at hd

theorem stringMk_data (s : String) : String.mk s.data = s := by
  cases s
  rfl

theorem encChars_ne_nil (v : JsonValue) : encChars v ≠ [] := by
  cases v with
  | jnull => simp [encChars]
  | jbool b => cases b <;> simp [encChars]
  | jnum n =>
    simp only [encChars, encNum]
    by_cases hn : n < 0
    · simp [hn]
    · simp [hn, natDigitChars_ne_nil]
  | jstr s => simp [encChars, encStr]
  | jarr xs => simp [encChars]
  | jobj fs => simp [encChars]

theorem encChars_head (v : JsonValue) : ∃ c t, encChars v = c :: t ∧ ¬ c = ']' := by
  cases v with
  | jnull => exact ⟨'n', _, rfl, by decide⟩
  | jbool b =>
    cases b with
    | false => exact ⟨'f', _, rfl, by decide⟩
    | true => exact ⟨'t', _, rfl, by decide⟩
  | jnum n =>
    by_cases hn : n < 0
    · refine ⟨'-', natDigitChars n.natAbs, ?_, by decide⟩
      simp [encChars, encNum, hn]
    · cases hd : natDigitChars n.natAbs with
      | nil => exact absurd hd (natDigitChars_ne_nil _)
      | cons c t =>
        refine ⟨c, t, ?_, ?_⟩
        · simp [encChars, encNum, hn, hd]
        · exact ne_of_isDigitCh
            (natDigitChars_all_digits _ c (hd ▸ List.mem_cons_self c t)) (by decide)
  | jstr s =>
    exact ⟨qc, escapeChars s.data ++ [qc], by simp [encChars, encStr], by decide⟩
  | jarr xs => exact ⟨'[', encItems xs ++ [']'], by simp [encChars], by decide⟩
  | jobj fs => exact ⟨obr, encFields fs ++ [cbr], by simp [encChars], by decide⟩

theorem encItems_length_ge : ∀ xs : List JsonValue, xs.length ≤ (encItems xs).length := by
  intro xs
  induction xs with
  | nil => simp [encItems]
  | cons x t ih =>
    cases t with
    | nil =>
      have := encChars_ne_nil x
      simp only [encItems, List.length_cons, List.length_nil]
      cases hx : encChars x with
      | nil => exact absurd hx this
      | cons c cs => simp [hx]
    | cons y t2 =>
      have hx := encChars_ne_nil x
      have hpos : 1 ≤ (encChars x).length := by
        cases hc : encChars x with
        | nil => exact absurd hc hx
        | cons c cs => simp
      simp only [encItems, List.length_cons, List.length_append]
      have := ih
      simp only [List.length_cons] at this ⊢
      omega

theorem encFields_length_ge :
    ∀ fs : List (String × JsonValue), fs.length ≤ (encFields fs).length := by
  intro fs
  induction fs with
  | nil => simp [encFields]
  | cons f t ih =>
    cases t with
    | nil =>
      simp only [encFields, List.length_cons, List.length_nil, List.length_append, encStr]
      omega
    | cons g t2 =>
      simp only [encFields, List.length_cons, List.length_append, encStr] at ih ⊢
      omega

theorem encItems_mem_le (xs : List JsonValue) (x : JsonValue) (hx : x ∈ xs) :
    (encChars x).length ≤ (encItems xs).length := by
  induction xs with
  | nil => cases hx
  | cons y t ih =>
    rcases List.mem_cons.mp hx with rfl | hmem
    · cases t with
      | nil => simp [encItems]
      | cons z t2 => simp [encItems]
    · cases t with
      | nil => cases hmem
      | cons z t2 =>
        have := ih hmem
        simp only [encItems, List.length_append, List.length_cons] at this ⊢
        omega

theorem encFields_mem_le (fs : List (String × JsonValue)) (p : String × JsonValue)
    (hp : p ∈ fs) : (encChars p.2).length ≤ (encFields fs).length := by
  induction fs with
  | nil => cases hp
  | cons f t ih =>
    rcases List.mem_cons.mp hp with rfl | hmem
    · cases t with
      | nil =>
        simp only [encFields, List.length_append, List.length_cons]
        omega
      | cons g t2 =>
        simp only [encFields, List.length_append, List.length_cons]
        omega
    · cases t with
      | nil => cases hmem
      | cons g t2 =>
        have := ih hmem
        simp only [encFields, List.length_append, List.length_cons] at this ⊢
        omega

theorem parseListAux_rbr (p : List Char → Option (JsonValue × List Char))
    (g : Nat) (l : List Char) : parseListAux p (g+1) (']' :: l) = some ([], l) := by
  rw [parseListAux]
  simp

theorem parseListAux_last (p : List Char → Option (JsonValue × List Char))
    (g : Nat) (c : Char) (cs : List Char) (x : JsonValue) (r2 : List Char)
    (hc : ¬ c = ']') (hE : p (c :: cs) = some (x, ']' :: r2)) :
    parseListAux p (g+1) (c :: cs) = some ([x], r2) := by
  rw [parseListAux]
  simp [hc, hE, show ¬ (']' : Char) = ',' from by decide]

theorem parseListAux_cons (p : List Char → Option (JsonValue × List Char))
    (g : Nat) (c : Char) (cs : List Char) (x : JsonValue) (r2 : List Char)
    (xs : List JsonValue) (r3 : List Char)
    (hc : ¬ c = ']') (hE : p (c :: cs) = some (x, ',' :: r2))
    (hR : parseListAux p g r2 = some (xs, r3)) :
    parseListAux p (g+1) (c :: cs) = some (x :: xs, r3) := by
  rw [parseListAux]
  simp [hc, hE, hR]

theorem parseFieldsAux_cbr (p : List Char → Option (JsonValue × List Char))
    (g : Nat) (l : List Char) : parseFieldsAux p (g+1) (cbr :: l) = some ([], l) := by
  rw [parseFieldsAux]
  simp

theorem parseFieldsAux_last (p : List Char → Option (JsonValue × List Char))
    (g : Nat) (cs : List Char) (k : List Char) (r2 : List Char)
    (x : JsonValue) (r4 : List Char)
    (hS : parseStrBody cs = some (k, ':' :: r2))
    (hE : p r2 = some (x, cbr :: r4)) :
    parseFieldsAux p (g+1) (qc :: cs) = some ([(String.mk k, x)], r4) := by
  rw [parseFieldsAux]
  simp [show ¬ qc = cbr from by decide, hS, hE,
    show ¬ cbr = ',' from by decide]

theorem parseFieldsAux_cons (p : List Char → Option (JsonValue × List Char))
    (g : Nat) (cs : List Char) (k : List Char) (r2 : List Char)
    (x : JsonValue) (r4 : List Char) (fs : List (String × JsonValue)) (r5 : List Char)
    (hS : parseStrBody cs = some (k, ':' :: r2))
    (hE : p r2 = some (x, ',' :: r4))
    (hR : parseFieldsAux p g r4 = some (fs, r5)) :
    parseFieldsAux p (g+1) (qc :: cs) = some ((String.mk k, x) :: fs, r5) := by
  rw [parseFieldsAux]
  simp [show ¬ qc = cbr from by decide, hS, hE, hR]

theorem parseListAux_encItems (pElem : List Char → Option (JsonValue × List Char)) :
    ∀ (xs : List JsonValue) (g : Nat) (rest : List Char), xs.length < g →
    (∀ x ∈ xs, ∀ r, numGuard r = true → pElem (encChars x ++ r) = some (x, r)) →
    parseListAux pElem g (encItems xs ++ ']' :: rest) = some (xs, rest) := by
  intro xs
  induction xs with
  | nil =>
    intro g rest hg hmem
    cases g with
    | zero => omega
    | succ g' =>
      simp only [encItems, List.nil_append]
      exact parseListAux_rbr pElem g' rest
  | cons x t ih =>
    intro g rest hg hmem
    cases g with
    | zero => omega
    | succ g' =>
      obtain ⟨c, ct, hct, hcne⟩ := encChars_head x
      cases t with
      | nil =>
        have hinput : encItems [x] ++ ']' :: rest = c :: (ct ++ ']' :: rest) := by
          simp [encItems, hct]
        rw [hinput]
        have hE : pElem (c :: (ct ++ ']' :: rest)) = some (x, ']' :: rest) := by
          have h := hmem x (List.mem_cons_self x []) (']' :: rest) (by rfl)
          rw [hct] at h
          simpa using h
        exact parseListAux_last pElem g' c _ x rest hcne hE
      | cons y t2 =>
        have hinput : encItems (x :: y :: t2) ++ ']' :: rest =
            c :: (ct ++ ',' :: (encItems (y :: t2) ++ ']' :: rest)) := by
          simp [encItems, hct]
        rw [hinput]
        have hE : pElem (c :: (ct ++ ',' :: (encItems (y :: t2) ++ ']' :: rest))) =
            some (x, ',' :: (encItems (y :: t2) ++ ']' :: rest)) := by
          have h := hmem x (List.mem_cons_self x (y :: t2))
            (',' :: (encItems (y :: t2) ++ ']' :: rest)) (by rfl)
          rw [hct] at h
          simpa using h
        have hR := ih g' rest (by simp at hg ⊢; omega)
          (fun z hz => hmem z (List.mem_cons_of_mem x hz))
        exact parseListAux_cons pElem g' c _ x _ (y :: t2) rest hcne hE hR

theorem parseFieldsAux_encFields (pElem : List Char → Option (JsonValue × List Char)) :
    ∀ (fs : List (String × JsonValue)) (g : Nat) (rest : List Char), fs.length < g →
    (∀ p ∈ fs, ∀ r, numGuard r = true → pElem (encChars p.2 ++ r) = some (p.2, r)) →
    parseFieldsAux pElem g (encFields fs ++ cbr :: rest) = some (fs, rest) := by
  intro fs
  induction fs with
  | nil =>
    intro g rest hg hmem
    cases g with
    | zero => omega
    | succ g' =>
      simp only [encFields, List.nil_append]
      exact parseFieldsAux_cbr pElem g' rest
  | cons f t ih =>
    intro g rest hg hmem
    obtain ⟨k, v⟩ := f
    cases g with
    | zero => omega
    | succ g' =>
      cases t with
      | nil =>
        have hinput : encFields [(k, v)] ++ cbr :: rest =
            qc :: (escapeChars k.data ++ qc :: (':' :: (encChars v ++ cbr :: rest))) := by
          simp [encFields, encStr]
        rw [hinput]
        have hS : parseStrBody (escapeChars k.data ++ qc :: (':' :: (encChars v ++ cbr :: rest))) =
            some (k.data, ':' :: (encChars v ++ cbr :: rest)) :=
          parseStrBody_escape k.data _
        have hE : pElem (encChars v ++ cbr :: rest) = some (v, cbr :: rest) :=
          hmem (k, v) (List.mem_cons_self _ []) (cbr :: rest) (by rfl)
        have := parseFieldsAux_last pElem g' _ k.data _ v rest hS hE
        rw [this, stringMk_data]
      | cons f2 t2 =>
        have hinput : encFields ((k, v) :: f2 :: t2) ++ cbr :: rest =
            qc :: (escapeChars k.data ++ qc ::
              (':' :: (encChars v ++ ',' :: (encFields (f2 :: t2) ++ cbr :: rest)))) := by
          simp [encFields, encStr]
        rw [hinput]
        have hS : parseStrBody (escapeChars k.data ++ qc ::
            (':' :: (encChars v ++ ',' :: (encFields (f2 :: t2) ++ cbr :: rest)))) =
            some (k.data, ':' :: (encChars v ++ ',' :: (encFields (f2 :: t2) ++ cbr :: rest))) :=
          parseStrBody_escape k.data _
        have hE : pElem (encChars v ++ ',' :: (encFields (f2 :: t2) ++ cbr :: rest)) =
            some (v, ',' :: (encFields (f2 :: t2) ++ cbr :: rest)) :=
          hmem (k, v) (List.mem_cons_self _ _) _ (by rfl)
        have hR := ih g' rest (by simp at hg ⊢; omega)
          (fun z hz => hmem z (List.mem_cons_of_mem _ hz))
        have := parseFieldsAux_cons pElem g' _ k.data _ v _ (f2 :: t2) rest hS hE hR
        rw [this, stringMk_data]

theorem parseVal_null (f : Nat) (rest : List Char) :
    parseVal (f+1) ('n' :: 'u' :: 'l' :: 'l' :: rest) = some (JsonValue.jnull, rest) := by
  rw [parseVal]
  simp [expectNull]

theorem parseVal_true (f : Nat) (rest : List Char) :
    parseVal (f+1) ('t' :: 'r' :: 'u' :: 'e' :: rest) = some (JsonValue.jbool true, rest) := by
  rw [parseVal]
  simp [expectTrue]

theorem parseVal_false (f : Nat) (rest : List Char) :
    parseVal (f+1) ('f' :: 'a' :: 'l' :: 's' :: 'e' :: rest) =
      some (JsonValue.jbool false, rest) := by
  rw [parseVal]
  simp [expectFalse]

theorem parseVal_str (f : Nat) (cs : List Char) (s r : List Char)
    (h : parseStrBody cs = some (s, r)) :
    parseVal (f+1) (qc :: cs) = some (JsonValue.jstr (String.mk s), r) := by
  rw [parseVal]
  simp [show ¬ qc = 'n' from by decide, show ¬ qc = 't' from by decide,
    show ¬ qc = 'f' from by decide, h, mapStr]

theorem parseVal_arr (f : Nat) (cs : List Char) (vs : List JsonValue) (r : List Char)
    (h : parseListAux (parseVal f) (cs.length + 1) cs = some (vs, r)) :
    parseVal (f+1) ('[' :: cs) = some (JsonValue.jarr vs, r) := by
  rw [parseVal]
  simp [show ¬ ('[' : Char) = 'n' from by decide, show ¬ ('[' : Char) = 't' from by decide,
    show ¬ ('[' : Char) = 'f' from by decide, show ¬ ('[' : Char) = qc from by decide,
    h, mapArr]

theorem parseVal_obj (f : Nat) (cs : List Char) (fs : List (String × JsonValue))
    (r : List Char)
    (h : parseFieldsAux (parseVal f) (cs.length + 1) cs = some (fs, r)) :
    parseVal (f+1) (obr :: cs) = some (JsonValue.jobj fs, r) := by
  rw [parseVal]
  simp [show ¬ obr = 'n' from by decide, show ¬ obr = 't' from by decide,
    show ¬ obr = 'f' from by decide, show ¬ obr = qc from by decide,
    show ¬ obr = '[' from by decide, h, mapObj]

theorem parseVal_neg (f : Nat) (cs : List Char) (d : Char) (ds r : List Char)
    (h : takeDigits cs = (d :: ds, r)) :
    parseVal (f+1) ('-' :: cs) = some (JsonValue.jnum (-(digitsVal (d :: ds) : Int)), r) := by
  rw [parseVal]
  simp [show ¬ ('-' : Char) = 'n' from by decide, show ¬ ('-' : Char) = 't' from by decide,
    show ¬ ('-' : Char) = 'f' from by decide, show ¬ ('-' : Char) = qc from by decide,
    show ¬ ('-' : Char) = '[' from by decide, show ¬ ('-' : Char) = obr from by decide,
    parseNegNum, h]

theorem parseVal_digit (f : Nat) (c : Char) (cs ds r : List Char)
    (hc : isDigitCh c = true) (h : takeDigits cs = (ds, r)) :
    parseVal (f+1) (c :: cs) = some (JsonValue.jnum ((digitsVal (c :: ds) : Nat) : Int), r) := by
  rw [parseVal]
  simp [ne_of_isDigitCh hc (show isDigitCh 'n' = false from by decide),
    ne_of_isDigitCh hc (show isDigitCh 't' = false from by decide),
    ne_of_isDigitCh hc (show isDigitCh 'f' = false from by decide),
    ne_of_isDigitCh hc (show isDigitCh qc = false from by decide),
    ne_of_isDigitCh hc (show isDigitCh '[' = false from by decide),
    ne_of_isDigitCh hc (show isDigitCh obr = false from by decide),
    ne_of_isDigitCh hc (show isDigitCh '-' = false from by decide),
    hc, parseNumFrom, h]

theorem parseVal_encChars : ∀ f v (rest : List Char), (encChars v).length < f →
    numGuard rest = true → parseVal f (encChars v ++ rest) = some (v, rest) := by
  intro f
  induction f using Nat.strong_induction_on with
  | _ f ih =>
    intro v rest hlen hg
    cases f with
    | zero => omega
    | succ g =>
      cases v with
      | jnull =>
        have he : encChars JsonValue.jnull ++ rest = 'n' :: 'u' :: 'l' :: 'l' :: rest := by
          simp [encChars]
        rw [he, parseVal_null]
      | jbool b =>
        cases b with
        | true =>
          have he : encChars (JsonValue.jbool true) ++ rest =
              't' :: 'r' :: 'u' :: 'e' :: rest := by simp [encChars]
          rw [he, parseVal_true]
        | false =>
          have he : encChars (JsonValue.jbool false) ++ rest =
              'f' :: 'a' :: 'l' :: 's' :: 'e' :: rest := by simp [encChars]
          rw [he, parseVal_false]
      | jnum n =>
        by_cases hn : n < 0
        · cases hd : natDigitChars n.natAbs with
          | nil => exact absurd hd (natDigitChars_ne_nil _)
          | cons c t =>
            have hdig : ∀ z ∈ c :: t, isDigitCh z = true := by
              rw [← hd]; exact natDigitChars_all_digits _
            have htk : takeDigits ((c :: t) ++ rest) = (c :: t, rest) :=
              takeDigits_append _ _ hdig hg
            have hinput : encChars (JsonValue.jnum n) ++ rest = '-' :: ((c :: t) ++ rest) := by
              simp [encChars, encNum, hn, hd]
            rw [hinput, parseVal_neg g _ c t rest htk]
            have hv : digitsVal (c :: t) = n.natAbs := by
              rw [← hd, digitsVal_natDigitChars]
            rw [hv]
            have hcast : (-(n.natAbs : Int)) = n := by omega
            rw [hcast]
        · cases hd : natDigitChars n.natAbs with
          | nil => exact absurd hd (natDigitChars_ne_nil _)
          | cons c t =>
            have hdig : ∀ z ∈ c :: t, isDigitCh z = true := by
              rw [← hd]; exact natDigitChars_all_digits _
            have htk : takeDigits (t ++ rest) = (t, rest) :=
              takeDigits_append _ _ (fun z hz => hdig z (List.mem_cons_of_mem c hz)) hg
            have hinput : encChars (JsonValue.jnum n) ++ rest = c :: (t ++ rest) := by
              simp [encChars, encNum, hn, hd]
            rw [hinput, parseVal_digit g c _ t rest (hdig c (List.mem_cons_self c t)) htk]
            have hv : digitsVal (c :: t) = n.natAbs := by
              rw [← hd, digitsVal_natDigitChars]
            rw [hv]
            have hcast : ((n.natAbs : Nat) : Int) = n := by omega
            rw [hcast]
      | jstr s =>
        have hinput : encChars (JsonValue.jstr s) ++ rest =
            qc :: (escapeChars s.data ++ qc :: rest) := by
          simp [encChars, encStr]
        rw [hinput, parseVal_str g _ s.data rest (parseStrBody_escape s.data rest),
          stringMk_data]
      | jarr xs =>
        have hlen2 : (encItems xs).length + 2 ≤ g + 1 := by
          simp only [encChars, List.length_cons, List.length_append,
            List.length_nil] at hlen
          omega
        have hinput : encChars (JsonValue.jarr xs) ++ rest =
            '[' :: (encItems xs ++ ']' :: rest) := by
          simp [encChars]
        rw [hinput]
        refine parseVal_arr g _ xs rest
          (parseListAux_encItems (parseVal g) xs _ rest ?_ ?_)
        · have h1 := encItems_length_ge xs
          simp only [List.length_append, List.length_cons]
          omega
        · intro x hx r hr
          refine ih g (Nat.lt_succ_self g) x r ?_ hr
          have h2 := encItems_mem_le xs x hx
          omega
      | jobj fs =>
        have hlen2 : (encFields fs).length + 2 ≤ g + 1 := by
          simp only [encChars, List.length_cons, List.length_append,
            List.length_nil] at hlen
          omega
        have hinput : encChars (JsonValue.jobj fs) ++ rest =
            obr :: (encFields fs ++ cbr :: rest) := by
          simp [encChars]
        rw [hinput]
        refine parseVal_obj g _ fs rest
          (parseFieldsAux_encFields (parseVal g) fs _ rest ?_ ?_)
        · have h1 := encFields_length_ge fs
          simp only [List.length_append, List.length_cons]
          omega
        · intro p hp r hr
          refine ih g (Nat.lt_succ_self g) p.2 r ?_ hr
          have h2 := encFields_mem_le fs p hp
          omega

theorem jsonParse_jsonEncode (v : JsonValue) : jsonParse (jsonEncode v) = some v := by
  unfold jsonParse jsonEncode
  have hd : (String.mk (encChars v)).data = encChars v := rfl
  rw [hd]
  have h := parseVal_encChars ((encChars v).length + 1) v [] (by omega) (by rfl)
  rw [List.append_nil] at h
  rw [h]

theorem headerGet_setIfAbsent_absent (h : HeaderMap) (nm v : String)
    (habs : headerGet h nm = none) :
    headerGet (setIfAbsent h nm v) nm = some v := by
  unfold setIfAbsent headerGet at *
  have hn : hasName h.entries nm = false := hasName_false_of_lookup_none _ _ habs
  simp only [hn, Bool.false_eq_true, if_false]
  rw [lookupEntries_append_none _ _ _ habs]
  simp [lookupEntries, keyEq]

/-- C6: a structured (JSON-serializable) body is emitted as one
buffered write of the UTF-8 bytes of its JSON serialization; parsing
that serialization back as JSON yields a value equal to the original;
and when no content type was explicitly set, the emitted content type
is `application/json; charset=utf-8`, which contains
`application/json`. -/
theorem c6_structured_json_roundtrip (d : ResponseDescriptor) (v : JsonValue)
    (hb : d.body = BodyValue.structured v)
    (hct : headerGet d.headers contentTypeName = none) :
    (normalizeBody d).transmission = Transmission.buffered (utf8Bytes (encChars v)) ∧
    jsonParse (jsonEncode v) = some v ∧
    headerGet (normalizeBody d).headers contentTypeName =
      some "application/json; charset=utf-8" ∧
    (∃ pre post : List Char, "application/json; charset=utf-8".data =
      pre ++ "application/json".data ++ post) := by
  obtain ⟨st, hd, bd⟩ := d
  cases hb
  exact ⟨rfl, jsonParse_jsonEncode v,
    headerGet_setIfAbsent_absent hd contentTypeName _ hct,
    ⟨[], "; charset=utf-8".data, by decide⟩⟩

/-- C6 witness: the concrete object with members a = 1 and b = "2"
(the repository test's JSON body) round trips through encoding and
parsing, and the inferred content type is the JSON one. -/
theorem c6_structured_json_roundtrip_witness :
    jsonParse (jsonEncode (JsonValue.jobj
      [("a", JsonValue.jnum 1), ("b", JsonValue.jstr "2")])) =
      some (JsonValue.jobj [("a", JsonValue.jnum 1), ("b", JsonValue.jstr "2")]) ∧
    headerGet (normalizeBody ⟨none, ⟨[]⟩, BodyValue.structured (JsonValue.jobj
        [("a", JsonValue.jnum 1), ("b", JsonValue.jstr "2")])⟩).headers
      contentTypeName = some "application/json; charset=utf-8" := by
  have h := c6_structured_json_roundtrip
    ⟨none, ⟨[]⟩, BodyValue.structured (JsonValue.jobj
      [("a", JsonValue.jnum 1), ("b", JsonValue.jstr "2")])⟩
    (JsonValue.jobj [("a", JsonValue.jnum 1), ("b", JsonValue.jstr "2")]) rfl rfl
  exact ⟨h.2.1, h.2.2.1⟩
